import Mathlib

set_option autoImplicit false

/-!
Verification of the equal-angle cevian concurrency counter
(`dangle_equal_angle_200.py`).

The numerical engine computes with IEEE double-precision floating point.
Every finite double is a rational number, so the engine is embedded with
carrier `ℚ` and the primitive floating-point operations (arithmetic, `tan`,
`atan`, `sqrt`, `pi`, `round`) abstracted as fields of a structure `FP`:
structural theorems are proved for every interpretation of those
primitives, hence in particular for the double-precision one.  Properties
whose truth depends on the concrete double values of `tan`/`atan` are
outside this embedding.  The mathematical (real-valued) idealization of
the angle table is embedded separately over `ℝ` for the safety invariant.
-/

namespace EqualAngle

/-- Abstract interpretation of the floating-point primitives used by the
Python code.  `add`, `sub`, `mul`, `div` are the (rounding) arithmetic
operations; `tan`, `atan`, `sqrt` the library functions; `pi` the value of
`math.pi`; `roundInt` Python's `int(round _)`.  Comparisons and `abs` on
finite doubles are exact, so they are modelled by the exact operations on
`ℚ`. -/
structure FP where
  pi : ℚ
  sqrt : ℚ → ℚ
  tan : ℚ → ℚ
  atan : ℚ → ℚ
  add : ℚ → ℚ → ℚ
  sub : ℚ → ℚ → ℚ
  mul : ℚ → ℚ → ℚ
  div : ℚ → ℚ → ℚ
  roundInt : ℚ → ℤ

/-- Module-level constant `SQRT3 = math.sqrt(3.0)`. -/
def SQRT3 (fp : FP) : ℚ := fp.sqrt 3

/-- The index list `1, 2, ..., n` traversed by `range(1, n + 1)`
(empty when `n ≤ 0`). -/
def idxList (n : ℤ) : List ℤ :=
  (List.range n.toNat).map (fun (a : ℕ) => (a : ℤ) + 1)

/-- `precompute_R(n)`: returns `(theta, R)` where `R` is the 1-based table
`[0.0] * (n+1)` filled with `R[k] = 2*tan(k*theta)/(SQRT3 - tan(k*theta))`
for `k = 1..n`; returns `(None, [])` for `n ≤ 0`. -/
def precompute_R (fp : FP) (n : ℤ) : Option ℚ × List ℚ :=
  if n ≤ 0 then (none, [])
  else
    let theta := fp.div fp.pi (fp.mul 3 ((n : ℚ) + 1))
    (some theta,
      0 :: (idxList n).map (fun k =>
        let t := fp.tan (fp.mul (k : ℚ) theta)
        fp.div (fp.mul 2 t) (fp.sub (SQRT3 fp) t)))

/-- Row-major traversal of the two nested loops
`for i in range(1, n+1): for j in range(1, n+1)`. -/
def pairList (n : ℤ) : List (ℤ × ℤ) :=
  (idxList n).flatMap (fun i => (idxList n).map (fun j => (i, j)))

/-- Body of the inner loop of `d_angle_fast`: decides whether the ordered
pair `(i, j)` contributes a counted triple.  `R` is the angle table and
`theta` the sector width. -/
def countBody (fp : FP) (n : ℤ) (tol theta : ℚ) (R : List ℚ) (p : ℤ × ℤ) : Bool :=
  let Ri := R.getD p.1.toNat 0
  let r_target := fp.div 1 (fp.mul Ri (R.getD p.2.toNat 0))
  if r_target ≤ 0 then false
  else
    let t := fp.div (fp.mul r_target (SQRT3 fp)) (fp.add 2 r_target)
    if t ≤ 0 then false
    else
      let x := fp.atan t
      let k := fp.roundInt (fp.div x theta)
      if 1 ≤ k ∧ k ≤ n then
        decide (|fp.sub (fp.mul (fp.mul Ri (R.getD p.2.toNat 0)) (R.getD k.toNat 0)) 1| ≤ tol)
      else false

/-- `d_angle_fast(n, tol)`: returns `0` for `n ≤ 0`; otherwise builds the
angle table and counts, over all ordered pairs `(i, j)`, those whose
inverted candidate `k` lies in `[1, n]` and passes the verification
`abs(R[i]*R[j]*R[k] - 1.0) <= tol`. -/
def d_angle_fast (fp : FP) (n : ℤ) (tol : ℚ) : ℕ :=
  if n ≤ 0 then 0
  else
    List.countP
      (countBody fp n tol ((precompute_R fp n).1.getD 0) (precompute_R fp n).2)
      (pairList n)

/-- Body of the inner loop of `list_solutions`: identical candidate
inversion and verification as `countBody`, but produces the accepted
triple `(i, j, k)` instead of a count. -/
def solBody (fp : FP) (n : ℤ) (tol theta : ℚ) (R : List ℚ) (p : ℤ × ℤ) :
    Option (ℤ × ℤ × ℤ) :=
  let Ri := R.getD p.1.toNat 0
  let r_target := fp.div 1 (fp.mul Ri (R.getD p.2.toNat 0))
  if r_target ≤ 0 then none
  else
    let t := fp.div (fp.mul r_target (SQRT3 fp)) (fp.add 2 r_target)
    if t ≤ 0 then none
    else
      let x := fp.atan t
      let k := fp.roundInt (fp.div x theta)
      if 1 ≤ k ∧ k ≤ n then
        if |fp.sub (fp.mul (fp.mul Ri (R.getD p.2.toNat 0)) (R.getD k.toNat 0)) 1| ≤ tol then
          some (p.1, p.2, k)
        else none
      else none

/-- `list_solutions(n, tol)`: returns `[]` for `n ≤ 0`; otherwise runs the
same pair loop as `d_angle_fast`, appending each accepted triple
`(i, j, k)` in discovery order. -/
def list_solutions (fp : FP) (n : ℤ) (tol : ℚ) : List (ℤ × ℤ × ℤ) :=
  if n ≤ 0 then []
  else
    List.filterMap
      (solBody fp n tol ((precompute_R fp n).1.getD 0) (precompute_R fp n).2)
      (pairList n)

/-- Entry `R[k]` of the angle table built by `precompute_R(n)`. -/
def Rtab (fp : FP) (n : ℤ) (k : ℤ) : ℚ :=
  (precompute_R fp n).2.getD k.toNat 0

/-- `a_rule(n)`: the conjectural closed form
`0` for even `n`, else `(3*n - 2) + (12 if n % 10 == 9 else 0)`. -/
def a_rule (n : ℤ) : ℤ :=
  if n % 2 = 0 then 0 else (3 * n - 2) + (if n % 10 = 9 then 12 else 0)

end EqualAngle

namespace EqualAngle

/-- A concrete interpretation of the floating-point primitives, used to
exhibit concrete runs of the engine. -/
def fpTest : FP where
  pi := 6
  sqrt := fun _ => 3
  tan := fun x => x
  atan := fun x => x
  add := fun a b => a + b
  sub := fun a b => a - b
  mul := fun a b => a * b
  div := fun a b => a / b
  roundInt := fun q => round q

lemma fpTest_sols : list_solutions fpTest 1 0 = [(1, 1, 1)] := by
  norm_num [list_solutions, pairList, idxList, precompute_R, SQRT3, fpTest, solBody,
    List.range_succ, List.filterMap_cons]

lemma isSome_solBody (fp : FP) (n : ℤ) (tol theta : ℚ) (R : List ℚ) (p : ℤ × ℤ) :
    (solBody fp n tol theta R p).isSome = countBody fp n tol theta R p := by
  simp only [solBody, countBody]
  split_ifs <;> simp_all

lemma length_filterMap_eq_countP {α β : Type} (f : α → Option β) (l : List α) :
    (l.filterMap f).length = l.countP (fun a => (f a).isSome) := by
  induction l with
  | nil => rfl
  | cons a l ih =>
    rw [List.filterMap_cons, List.countP_cons]
    cases h : f a <;> simp [h, ih]

lemma list_solutions_length_eq (fp : FP) (n : ℤ) (tol : ℚ) :
    (list_solutions fp n tol).length = d_angle_fast fp n tol := by
  unfold list_solutions d_angle_fast
  split_ifs with h
  · rfl
  · rw [length_filterMap_eq_countP]
    exact List.countP_congr (fun p _ => by rw [isSome_solBody])

lemma mem_idxList {n i : ℤ} : i ∈ idxList n ↔ 1 ≤ i ∧ i ≤ n := by
  unfold idxList
  rw [List.mem_map]
  constructor
  · rintro ⟨a, ha, rfl⟩
    rw [List.mem_range] at ha
    omega
  · intro h
    refine ⟨(i - 1).toNat, ?_, ?_⟩
    · rw [List.mem_range]
      omega
    · omega

lemma mem_pairList {n : ℤ} {p : ℤ × ℤ} :
    p ∈ pairList n ↔ (1 ≤ p.1 ∧ p.1 ≤ n) ∧ (1 ≤ p.2 ∧ p.2 ≤ n) := by
  obtain ⟨i, j⟩ := p
  simp only [pairList, List.mem_flatMap, List.mem_map, Prod.mk.injEq]
  constructor
  · rintro ⟨a, ha, b, hb, rfl, rfl⟩
    exact ⟨mem_idxList.1 ha, mem_idxList.1 hb⟩
  · rintro ⟨hi, hj⟩
    exact ⟨i, mem_idxList.2 hi, j, mem_idxList.2 hj, rfl, rfl⟩

end EqualAngle

namespace EqualAngle

lemma solBody_some (fp : FP) (n : ℤ) (tol theta : ℚ) (R : List ℚ) (p : ℤ × ℤ)
    (t : ℤ × ℤ × ℤ) (h : solBody fp n tol theta R p = some t) :
    t.1 = p.1 ∧ t.2.1 = p.2 ∧ (1 ≤ t.2.2 ∧ t.2.2 ≤ n) ∧
      |fp.sub (fp.mul (fp.mul (R.getD p.1.toNat 0) (R.getD p.2.toNat 0))
          (R.getD t.2.2.toNat 0)) 1| ≤ tol := by
  simp only [solBody] at h
  split_ifs at h with h1 h2 h3 h4
  obtain rfl := Option.some.inj h
  exact ⟨rfl, rfl, h3, h4⟩

/-- Strict lexicographic comparison of ordered index pairs: the outer loop
index strictly first, the inner loop index second. -/
def pairLex (p q : ℤ × ℤ) : Prop := p.1 < q.1 ∨ (p.1 = q.1 ∧ p.2 < q.2)

lemma pairwise_idxList (n : ℤ) : (idxList n).Pairwise (· < ·) := by
  unfold idxList
  refine List.pairwise_map.2 ?_
  refine (List.pairwise_lt_range _).imp ?_
  intro a b hab
  omega

lemma pairwise_flatMap_pairs {l₁ l₂ : List ℤ} (h₁ : l₁.Pairwise (· < ·))
    (h₂ : l₂.Pairwise (· < ·)) :
    (l₁.flatMap fun i => l₂.map fun j => (i, j)).Pairwise pairLex := by
  induction l₁ with
  | nil => simp
  | cons a l ih =>
    rw [List.flatMap_cons, List.pairwise_append]
    refine ⟨?_, ih (List.Pairwise.of_cons h₁), ?_⟩
    · refine List.pairwise_map.2 (List.Pairwise.imp ?_ h₂)
      intro x y hlt
      exact Or.inr ⟨rfl, hlt⟩
    · intro x hx y hy
      rw [List.mem_map] at hx
      obtain ⟨jx, _, rfl⟩ := hx
      rw [List.mem_flatMap] at hy
      obtain ⟨b, hb, hyb⟩ := hy
      rw [List.mem_map] at hyb
      obtain ⟨jy, _, rfl⟩ := hyb
      exact Or.inl ((List.pairwise_cons.1 h₁).1 b hb)

lemma map_filterMap_sublist {α β : Type} (f : α → Option β) (g : β → α) (l : List α)
    (hf : ∀ a b, f a = some b → g b = a) :
    ((l.filterMap f).map g).Sublist l := by
  induction l with
  | nil => simp
  | cons a l ih =>
    rw [List.filterMap_cons]
    cases h : f a with
    | none => exact ih.cons a
    | some b =>
      rw [List.map_cons, hf a b h]
      exact ih.cons₂ a

lemma length_idxList (n : ℤ) : (idxList n).length = n.toNat := by
  simp [idxList]

lemma length_pairList (n : ℤ) : (pairList n).length = n.toNat * n.toNat := by
  unfold pairList
  rw [List.length_flatMap]
  have h2 : List.map (List.length ∘ fun i => (idxList n).map fun j => (i, j)) (idxList n)
      = List.map (fun _ => n.toNat) (idxList n) := by
    apply List.map_congr_left
    intro i _
    simp [length_idxList]
  rw [h2, List.map_const', List.sum_replicate, length_idxList, smul_eq_mul]

end EqualAngle

namespace EqualAngle

lemma pairwise_pairList (n : ℤ) : (pairList n).Pairwise pairLex :=
  pairwise_flatMap_pairs (pairwise_idxList n) (pairwise_idxList n)

lemma proj_sublist_pairList (fp : FP) (n : ℤ) (tol : ℚ) :
    (((list_solutions fp n tol).map fun t => (t.1, t.2.1)).Sublist (pairList n)) := by
  unfold list_solutions
  split_ifs
  · simp
  · apply map_filterMap_sublist
    intro p t h
    obtain ⟨h1, h2, -, -⟩ := solBody_some fp n tol _ _ p t h
    rw [h1, h2]

end EqualAngle

namespace EqualAngle

/-- Real-valued idealization of the sector width computed by
`precompute_R(n)`: `theta = pi / (3 * (n + 1))`. -/
noncomputable def thetaReal (n : ℕ) : ℝ := Real.pi / (3 * (n + 1))

/-- Real-valued idealization of the angle-table entry computed by
`precompute_R(n)`: `R[k] = 2 * tan(k * theta) / (sqrt 3 - tan(k * theta))`. -/
noncomputable def Rreal (n k : ℕ) : ℝ :=
  2 * Real.tan (k * thetaReal n) / (Real.sqrt 3 - Real.tan (k * thetaReal n))

lemma thetaReal_pos (n : ℕ) : 0 < thetaReal n := by
  unfold thetaReal
  positivity

lemma angle_lt_pi_div_three {n k : ℕ} (h2 : k ≤ n) :
    (k : ℝ) * thetaReal n < Real.pi / 3 := by
  have hθ := thetaReal_pos n
  have hk1 : (k : ℝ) < (n : ℝ) + 1 := by
    exact_mod_cast Nat.lt_succ_of_le h2
  have hstep : (k : ℝ) * thetaReal n < ((n : ℝ) + 1) * thetaReal n :=
    mul_lt_mul_of_pos_right hk1 hθ
  have hne : (n : ℝ) + 1 ≠ 0 := by positivity
  have heq : ((n : ℝ) + 1) * thetaReal n = Real.pi / 3 := by
    unfold thetaReal
    field_simp
    ring
  rwa [heq] at hstep

lemma tan_angle_pos {n k : ℕ} (h1 : 1 ≤ k) (h2 : k ≤ n) :
    0 < Real.tan ((k : ℝ) * thetaReal n) := by
  have hx0 : 0 < (k : ℝ) * thetaReal n := by
    have : (0 : ℝ) < (k : ℝ) := by exact_mod_cast h1
    exact mul_pos this (thetaReal_pos n)
  have hx2 : (k : ℝ) * thetaReal n < Real.pi / 2 := by
    have := angle_lt_pi_div_three h2
    have hp := Real.pi_pos
    linarith
  exact Real.tan_pos_of_pos_of_lt_pi_div_two hx0 hx2

lemma tan_angle_lt_sqrt3 {n k : ℕ} (h2 : k ≤ n) :
    Real.tan ((k : ℝ) * thetaReal n) < Real.sqrt 3 := by
  have hx0 : (0 : ℝ) ≤ (k : ℝ) * thetaReal n := by
    have : (0 : ℝ) ≤ (k : ℝ) := by positivity
    exact mul_nonneg this (thetaReal_pos n).le
  have hππ : Real.pi / 3 < Real.pi / 2 := by
    have hp := Real.pi_pos
    linarith
  have := Real.tan_lt_tan_of_nonneg_of_lt_pi_div_two hx0 hππ (angle_lt_pi_div_three h2)
  rwa [Real.tan_pi_div_three] at this

end EqualAngle

namespace EqualAngle

/-- Decimal digit characters of a natural number, most significant digit
first: the rendering of a non-negative integer by Python's `f"{v}"`. -/
def natChars (m : ℕ) : List Char :=
  if m < 10 then [Nat.digitChar m]
  else natChars (m / 10) ++ [Nat.digitChar (m % 10)]
termination_by m
decreasing_by omega

/-- Decimal rendering of an integer, with a leading minus sign when
negative: Python's `f"{v}"` for an `int` value. -/
def intChars (v : ℤ) : List Char :=
  if v < 0 then '-' :: natChars v.natAbs else natChars v.toNat

/-- `write_bfile(vals, path)`: the exact character content written to the
file — for each `(n, v)` of `enumerate(vals, start=1)` the line
`f"{n} {v}\n"`, concatenated in order. -/
def write_bfile (vals : List ℤ) : List Char :=
  ((List.enumFrom 1 vals).map
    (fun p => (natChars p.1 ++ ' ' :: intChars p.2) ++ ['\n'])).flatten

/-- Numeric value of a digit character. -/
def digitVal (c : Char) : ℕ := c.toNat - 48

/-- Value of a decimal digit string. -/
def parseNat (l : List Char) : ℕ :=
  l.foldl (fun acc c => 10 * acc + digitVal c) 0

/-- Value of a decimal integer string with an optional leading minus. -/
def parseInt (l : List Char) : ℤ :=
  if l.head? = some '-' then -(parseNat l.tail : ℤ) else (parseNat l : ℤ)

/-- Split a character sequence at every occurrence of `sep`; a text ending
in `sep` yields a trailing empty segment. -/
def splitOnChar (sep : Char) : List Char → List (List Char)
  | [] => [[]]
  | c :: rest =>
    if c = sep then [] :: splitOnChar sep rest
    else
      match splitOnChar sep rest with
      | [] => [[c]]
      | s :: ss => (c :: s) :: ss

/-- Modelled from the spec: the spec's b-file round-trip re-parses the
written file (the repository itself ships no parser).  Each
newline-terminated line is split at the space and the second field read
back as an integer. -/
def parse_bfile (file : List Char) : List ℤ :=
  (splitOnChar '\n' file).dropLast.map
    (fun line => parseInt ((line.dropWhile (fun c => c != ' ')).drop 1))

end EqualAngle

namespace EqualAngle

lemma digitChar_toNat {d : ℕ} (h : d < 10) : (Nat.digitChar d).toNat = 48 + d := by
  interval_cases d <;> rfl

lemma natChars_ne_nil (m : ℕ) : natChars m ≠ [] := by
  rw [natChars]
  split_ifs <;> simp

lemma natChars_all_digits (m : ℕ) : ∀ c ∈ natChars m, 48 ≤ c.toNat ∧ c.toNat ≤ 57 := by
  induction m using Nat.strong_induction_on with
  | _ m ih =>
    rw [natChars]
    split_ifs with h
    · intro c hc
      rw [List.mem_singleton] at hc
      subst hc
      rw [digitChar_toNat h]
      omega
    · intro c hc
      rcases List.mem_append.1 hc with hc | hc
      · exact ih (m / 10) (by omega) c hc
      · rw [List.mem_singleton] at hc
        subst hc
        rw [digitChar_toNat (by omega : m % 10 < 10)]
        omega

lemma digitVal_digitChar {d : ℕ} (h : d < 10) : digitVal (Nat.digitChar d) = d := by
  rw [digitVal, digitChar_toNat h]
  omega

lemma parseNat_append_digit (l : List Char) (c : Char) :
    parseNat (l ++ [c]) = 10 * parseNat l + digitVal c := by
  simp [parseNat, List.foldl_append]

lemma parseNat_natChars (m : ℕ) : parseNat (natChars m) = m := by
  induction m using Nat.strong_induction_on with
  | _ m ih =>
    rw [natChars]
    split_ifs with h
    · simp [parseNat, digitVal_digitChar h]
    · rw [parseNat_append_digit, ih (m / 10) (by omega),
        digitVal_digitChar (by omega : m % 10 < 10)]
      omega

lemma parseInt_intChars (v : ℤ) : parseInt (intChars v) = v := by
  unfold intChars
  split_ifs with h
  · rw [parseInt, List.head?_cons, List.tail_cons, if_pos rfl, parseNat_natChars]
    omega
  · cases hnc : natChars v.toNat with
    | nil => exact absurd hnc (natChars_ne_nil _)
    | cons c rest =>
      have hd := natChars_all_digits v.toNat c (by rw [hnc]; exact List.mem_cons_self c rest)
      have hcne : ¬ ((c :: rest).head? = some '-') := by
        simp only [List.head?_cons, Option.some.injEq]
        intro hEq
        rw [hEq] at hd
        revert hd
        decide
      rw [parseInt, if_neg hcne, ← hnc, parseNat_natChars]
      omega

end EqualAngle

namespace EqualAngle

lemma splitOnChar_cons_sep (sep : Char) (rest : List Char) :
    splitOnChar sep (sep :: rest) = [] :: splitOnChar sep rest := by
  rw [splitOnChar, if_pos rfl]

lemma splitOnChar_append_sep (sep : Char) (l rest : List Char)
    (hl : ∀ c ∈ l, c ≠ sep) :
    splitOnChar sep (l ++ sep :: rest) = l :: splitOnChar sep rest := by
  induction l with
  | nil =>
    rw [List.nil_append, splitOnChar_cons_sep]
  | cons c l ih =>
    have hc : c ≠ sep := hl c (List.mem_cons_self c l)
    rw [List.cons_append, splitOnChar, if_neg hc,
      ih (fun d hd => hl d (List.mem_cons_of_mem c hd))]

lemma splitOnChar_flatten (sep : Char) (ls : List (List Char))
    (h : ∀ l ∈ ls, ∀ c ∈ l, c ≠ sep) :
    splitOnChar sep ((ls.map (fun l => l ++ [sep])).flatten) = ls ++ [[]] := by
  induction ls with
  | nil => rfl
  | cons l ls ih =>
    rw [List.map_cons, List.flatten_cons, List.append_assoc, List.singleton_append,
      splitOnChar_append_sep sep l _ (h l (List.mem_cons_self l ls)),
      ih (fun l' hl' => h l' (List.mem_cons_of_mem l hl'))]
    rfl

lemma natChars_no_newline_no_space (m : ℕ) :
    ∀ c ∈ natChars m, c ≠ '\n' ∧ c ≠ ' ' := by
  intro c hc
  have hd := natChars_all_digits m c hc
  constructor
  · intro hEq
    rw [hEq] at hd
    revert hd
    decide
  · intro hEq
    rw [hEq] at hd
    revert hd
    decide

lemma intChars_no_newline_no_space (v : ℤ) :
    ∀ c ∈ intChars v, c ≠ '\n' ∧ c ≠ ' ' := by
  intro c hc
  unfold intChars at hc
  split_ifs at hc with h
  · rcases List.mem_cons.1 hc with hc | hc
    · subst hc
      exact ⟨by decide, by decide⟩
    · exact natChars_no_newline_no_space _ c hc
  · exact natChars_no_newline_no_space _ c hc

lemma bfile_line_no_newline (a : ℕ) (v : ℤ) :
    ∀ c ∈ natChars a ++ ' ' :: intChars v, c ≠ '\n' := by
  intro c hc
  rcases List.mem_append.1 hc with hc | hc
  · exact (natChars_no_newline_no_space a c hc).1
  · rcases List.mem_cons.1 hc with hc | hc
    · subst hc
      decide
    · exact (intChars_no_newline_no_space v c hc).1

lemma parse_bfile_line (a : ℕ) (v : ℤ) :
    parseInt (((natChars a ++ ' ' :: intChars v).dropWhile (fun c => c != ' ')).drop 1)
      = v := by
  have h1 : (natChars a).dropWhile (fun c => c != ' ') = [] := by
    rw [List.dropWhile_eq_nil_iff]
    intro c hc
    simpa using (natChars_no_newline_no_space a c hc).2
  have h2 : (natChars a ++ ' ' :: intChars v).dropWhile (fun c => c != ' ')
      = ' ' :: intChars v := by
    rw [List.dropWhile_append, h1]
    simp [List.dropWhile_cons]
  rw [h2, List.drop_one, List.tail_cons, parseInt_intChars]

end EqualAngle

namespace EqualAngle

lemma enumFrom_map_snd {α : Type} (s : ℕ) (l : List α) :
    (List.enumFrom s l).map Prod.snd = l := by
  induction l generalizing s with
  | nil => rfl
  | cons a l ih => rw [List.enumFrom_cons, List.map_cons, ih]

lemma split_write_bfile (vals : List ℤ) :
    splitOnChar '\n' (write_bfile vals)
      = (List.enumFrom 1 vals).map (fun p => natChars p.1 ++ ' ' :: intChars p.2)
          ++ [[]] := by
  unfold write_bfile
  have hmm : (List.enumFrom 1 vals).map
        (fun p => (natChars p.1 ++ ' ' :: intChars p.2) ++ ['\n'])
      = ((List.enumFrom 1 vals).map (fun p => natChars p.1 ++ ' ' :: intChars p.2)).map
          (fun l => l ++ ['\n']) := by
    rw [List.map_map]
    rfl
  rw [hmm]
  apply splitOnChar_flatten
  intro l hl
  rw [List.mem_map] at hl
  obtain ⟨p, -, rfl⟩ := hl
  exact bfile_line_no_newline p.1 p.2

lemma parse_write_bfile (vals : List ℤ) : parse_bfile (write_bfile vals) = vals := by
  unfold parse_bfile
  rw [split_write_bfile, List.dropLast_concat, List.map_map]
  have hcong : List.map
        ((fun line => parseInt ((List.dropWhile (fun c => c != ' ') line).drop 1)) ∘
          fun p : ℕ × ℤ => natChars p.1 ++ ' ' :: intChars p.2)
        (List.enumFrom 1 vals)
      = List.map Prod.snd (List.enumFrom 1 vals) :=
    List.map_congr_left (fun p _ => parse_bfile_line p.1 p.2)
  rw [hcong, enumFrom_map_snd]

end EqualAngle

namespace EqualAngle

/-- C2: for every integer n ≥ 1, `a_rule(n)` equals 0 when n is even,
3n − 2 when n is odd and n mod 10 ≠ 9, and 3n + 10 when n is odd and
n mod 10 = 9; in particular a_rule(1) = 1, a_rule(9) = 37, a_rule(10) = 0,
and a_rule(19) = 67. -/
theorem a_rule_closed_form (n : ℤ) (_h : 1 ≤ n) :
    (Even n → a_rule n = 0) ∧
      (¬ Even n → n % 10 ≠ 9 → a_rule n = 3 * n - 2) ∧
      (¬ Even n → n % 10 = 9 → a_rule n = 3 * n + 10) ∧
      a_rule 1 = 1 ∧ a_rule 9 = 37 ∧ a_rule 10 = 0 ∧ a_rule 19 = 67 := by
  refine ⟨?_, ?_, ?_, by decide, by decide, by decide, by decide⟩
  · intro he
    rw [a_rule, if_pos (Int.even_iff.1 he)]
  · intro ho h10
    rw [a_rule, if_neg (fun hc => ho (Int.even_iff.2 hc)), if_neg h10, add_zero]
  · intro ho h10
    rw [a_rule, if_neg (fun hc => ho (Int.even_iff.2 hc)), if_pos h10]
    ring

/-- Witness for `a_rule_closed_form`, instantiated at n = 19. -/
theorem a_rule_closed_form_witness :
    1 ≤ (19 : ℤ) ∧
      ((Even (19 : ℤ) → a_rule 19 = 0) ∧
        (¬ Even (19 : ℤ) → (19 : ℤ) % 10 ≠ 9 → a_rule 19 = 3 * 19 - 2) ∧
        (¬ Even (19 : ℤ) → (19 : ℤ) % 10 = 9 → a_rule 19 = 3 * 19 + 10) ∧
        a_rule 1 = 1 ∧ a_rule 9 = 37 ∧ a_rule 10 = 0 ∧ a_rule 19 = 67) :=
  ⟨by decide, a_rule_closed_form 19 (by decide)⟩

/-- C3: for every n and every tolerance, `list_solutions(n, tol)` returns
a list whose length equals `d_angle_fast(n, tol)`, for every
interpretation of the floating-point primitives: the two functions run
the same pair loop, candidate inversion and verification, one counting
and one appending. -/
theorem list_solutions_length_eq_d_angle_fast (fp : FP) (n : ℤ) (tol : ℚ) :
    (list_solutions fp n tol).length = d_angle_fast fp n tol :=
  list_solutions_length_eq fp n tol

/-- C4: every triple (i, j, k) returned by `list_solutions(n, tol)`
satisfies 1 ≤ i, j, k ≤ n and passes the tolerance verification on the
product of the corresponding `precompute_R(n)` table entries. -/
theorem list_solutions_sound (fp : FP) (n : ℤ) (tol : ℚ) (t : ℤ × ℤ × ℤ)
    (h : t ∈ list_solutions fp n tol) :
    (1 ≤ t.1 ∧ t.1 ≤ n) ∧ (1 ≤ t.2.1 ∧ t.2.1 ≤ n) ∧ (1 ≤ t.2.2 ∧ t.2.2 ≤ n) ∧
      |fp.sub (fp.mul (fp.mul (Rtab fp n t.1) (Rtab fp n t.2.1)) (Rtab fp n t.2.2)) 1|
        ≤ tol := by
  unfold list_solutions at h
  split_ifs at h with hn
  · simp at h
  · rw [List.mem_filterMap] at h
    obtain ⟨p, hp, hs⟩ := h
    obtain ⟨h1, h2, h3, h4⟩ := solBody_some fp n tol _ _ p t hs
    obtain ⟨hpi, hpj⟩ := mem_pairList.1 hp
    refine ⟨?_, ?_, h3, ?_⟩
    · rw [h1]
      exact hpi
    · rw [h2]
      exact hpj
    · unfold Rtab
      rw [h1, h2]
      exact h4

/-- Witness for `list_solutions_sound`: under the concrete interpretation
`fpTest` with n = 1 and tol = 0 the triple (1, 1, 1) is returned and
satisfies the bounds and the verification. -/
theorem list_solutions_sound_witness :
    ((1, 1, 1) : ℤ × ℤ × ℤ) ∈ list_solutions fpTest 1 0 ∧
      ((1 ≤ (1 : ℤ) ∧ (1 : ℤ) ≤ 1) ∧ (1 ≤ (1 : ℤ) ∧ (1 : ℤ) ≤ 1) ∧
        (1 ≤ (1 : ℤ) ∧ (1 : ℤ) ≤ 1) ∧
        |fpTest.sub (fpTest.mul (fpTest.mul (Rtab fpTest 1 1) (Rtab fpTest 1 1))
            (Rtab fpTest 1 1)) 1| ≤ 0) := by
  have hm : ((1, 1, 1) : ℤ × ℤ × ℤ) ∈ list_solutions fpTest 1 0 := by
    rw [fpTest_sols]
    exact List.mem_singleton.2 rfl
  exact ⟨hm, list_solutions_sound fpTest 1 0 (1, 1, 1) hm⟩

/-- C6: for every n ≤ 0 and any tolerance, `d_angle_fast` returns 0 and
`list_solutions` returns the empty list — the degenerate input is not an
error. -/
theorem degenerate_input (fp : FP) (n : ℤ) (tol : ℚ) (h : n ≤ 0) :
    d_angle_fast fp n tol = 0 ∧ list_solutions fp n tol = [] := by
  unfold d_angle_fast list_solutions
  rw [if_pos h, if_pos h]
  exact ⟨rfl, rfl⟩

/-- Witness for `degenerate_input` at n = 0. -/
theorem degenerate_input_witness :
    (0 : ℤ) ≤ 0 ∧ d_angle_fast fpTest 0 0 = 0 ∧ list_solutions fpTest 0 0 = [] := by
  refine ⟨by decide, ?_, ?_⟩
  · exact (degenerate_input fpTest 0 0 (by decide)).1
  · exact (degenerate_input fpTest 0 0 (by decide)).2

/-- C7: for every n ≥ 1 and k in [1, n] the denominator √3 − tan(kθ) of
the table entry (real-valued idealization of `precompute_R`) is nonzero,
and the entry R[k] is strictly positive. -/
theorem precompute_R_well_defined (n k : ℕ) (h1 : 1 ≤ k) (h2 : k ≤ n) :
    Real.sqrt 3 - Real.tan ((k : ℝ) * thetaReal n) ≠ 0 ∧ 0 < Rreal n k := by
  have hlt := tan_angle_lt_sqrt3 (n := n) (k := k) h2
  have hpos := tan_angle_pos h1 h2
  constructor
  · exact ne_of_gt (sub_pos.2 hlt)
  · unfold Rreal
    exact div_pos (by linarith) (sub_pos.2 hlt)

/-- Witness for `precompute_R_well_defined` at n = 1, k = 1. -/
theorem precompute_R_well_defined_witness :
    1 ≤ (1 : ℕ) ∧ (1 : ℕ) ≤ 1 ∧
      (Real.sqrt 3 - Real.tan (((1 : ℕ) : ℝ) * thetaReal 1) ≠ 0 ∧ 0 < Rreal 1 1) :=
  ⟨le_refl 1, le_refl 1, precompute_R_well_defined 1 1 (le_refl 1) (le_refl 1)⟩

/-- C8: the list returned by `list_solutions(n, tol)` is strictly
increasing in the lexicographic order of the pair (i, j); consequently
its length, and hence `d_angle_fast(n, tol)`, is at most n². -/
theorem list_solutions_sorted_and_bounded (fp : FP) (n : ℤ) (tol : ℚ) :
    (list_solutions fp n tol).Pairwise
        (fun a b => a.1 < b.1 ∨ (a.1 = b.1 ∧ a.2.1 < b.2.1)) ∧
      (list_solutions fp n tol).length ≤ n.toNat ^ 2 ∧
      d_angle_fast fp n tol ≤ n.toNat ^ 2 := by
  have hsub := proj_sublist_pairList fp n tol
  have hpw := List.Pairwise.sublist hsub (pairwise_pairList n)
  rw [List.pairwise_map] at hpw
  have hlen : (list_solutions fp n tol).length ≤ n.toNat ^ 2 := by
    have hle := hsub.length_le
    rw [List.length_map, length_pairList] at hle
    calc (list_solutions fp n tol).length ≤ n.toNat * n.toNat := hle
      _ = n.toNat ^ 2 := (sq n.toNat).symm
  refine ⟨?_, hlen, ?_⟩
  · exact hpw
  · rw [← list_solutions_length_eq]
    exact hlen

/-- C10: the b-file written for `vals` splits at newlines into exactly the
lines "<i> <vals[i-1]>" for i = 1..m followed by the empty segment after
the final newline, has exactly m lines, and re-parsing it recovers
`vals`. -/
theorem write_bfile_format_round_trip (vals : List ℤ) :
    splitOnChar '\n' (write_bfile vals)
        = (List.enumFrom 1 vals).map (fun p => natChars p.1 ++ ' ' :: intChars p.2)
            ++ [[]]
      ∧ (splitOnChar '\n' (write_bfile vals)).dropLast.length = vals.length
      ∧ parse_bfile (write_bfile vals) = vals := by
  refine ⟨split_write_bfile vals, ?_, parse_write_bfile vals⟩
  rw [split_write_bfile vals, List.dropLast_concat, List.length_map, List.enumFrom_length]

end EqualAngle
